import Mathlib

/-!
Shallow embedding of `scripts/train_naive_bayes.py` (Naive Bayes
training-and-inference engine of the expense tracker) together with proofs
of the specification claims about it.

Conventions of the embedding:

* Python strings are Lean `String`s (lists of characters); `str.lower()` is
  embedded character-wise as `pyLower`.
* The script stores `math.log(p)` (a float) in its prior and likelihood
  tables.  Floating point is modelled by exact arithmetic: the tables here
  store the exact rational probability `p`, and the log-space statements of
  the claims are expressed with `Real.log` applied to those rationals in the
  theorems.  Since `Real.log` is strictly monotone on the positive reals this
  is faithful to the log-space comparisons the script performs.
* Exceptions that escape `train_naive_bayes` (a `json.JSONDecodeError`
  raised while reading a line, the `ZeroDivisionError` raised by the final
  accuracy report when no document was retained) are modelled explicitly by
  `Except` / the `RunOutcome.crashed` constructor.
-/

/-- `True` on the characters the tokenizer keeps: the regex class
`[a-z0-9]` of `re.findall(r'[a-z0-9]+', text)`. -/
def isTok (c : Char) : Bool :=
  (decide ('a' ≤ c) && decide (c ≤ 'z')) || (decide ('0' ≤ c) && decide (c ≤ '9'))

/-- Character-wise embedding of Python `str.lower()` (ASCII range; the
claims only depend on its action on ASCII letters, digits and space). -/
def pyLower (c : Char) : Char :=
  if decide ('A' ≤ c) && decide (c ≤ 'Z') then Char.ofNat (c.toNat + 32) else c

/-- Splits a character list into the maximal runs of characters matching
`isTok`, i.e. the matches of `re.findall(r'[a-z0-9]+', ·)`.  `acc` holds the
(reversed) run currently being read. -/
def tokRuns : List Char → List Char → List (List Char)
  | [], acc => if acc.isEmpty then [] else [acc.reverse]
  | c :: cs, acc =>
    if isTok c then tokRuns cs (c :: acc)
    else if acc.isEmpty then tokRuns cs acc else acc.reverse :: tokRuns cs []

/-- `tokenize` of the script: lowercase, then keep the maximal alphanumeric
runs. -/
def tokenize (s : String) : List String :=
  (tokRuns (s.data.map pyLower) []).map fun cs => ⟨cs⟩

/-- Character-level `" ".join`: concatenates token character lists with a
single space between consecutive tokens. -/
def joinChars : List (List Char) → List Char
  | [] => []
  | [t] => t
  | t :: ts => t ++ ' ' :: joinChars ts

/-- `" ".join(tokens)` on strings. -/
def joinTokens (ts : List String) : String :=
  ⟨joinChars (ts.map String.data)⟩

/-- The fields of one JSON record that the training script reads.  A field
is `none` when the key is absent; JSON `""` is `some ""` (which Python's
truthiness test treats the same as an absent key). -/
structure Record where
  merchant : Option String
  text : Option String
  category : Option String
  label : Option String
deriving DecidableEq, Repr

/-- Text resolution of the script (lines 59–61): `record.get('merchant', '')`
with fallback to `record.get('text', '')`; an empty resolved value counts as
unresolved (`if not text`). -/
def resolveText (r : Record) : Option String :=
  let t := r.merchant.getD ""
  let t := if t = "" then r.text.getD "" else t
  if t = "" then none else some t

/-- Label resolution of the script (lines 63–65): `record.get('category')`
with fallback to `record.get('label')`; `None` and `""` are both falsy. -/
def resolveLabel (r : Record) : Option String :=
  let c := (r.category.getD "")
  let c := if c = "" then r.label.getD "" else c
  if c = "" then none else some c

/-- The body of the ingestion loop (lines 54–74) for a single record:
`some (tokens, category)` when the record is retained as a document, `none`
when it is dropped (missing text/label, or text tokenizing to nothing). -/
def docOfRecord (r : Record) : Option (List String × String) :=
  match resolveText r, resolveLabel r with
  | some t, some c => let toks := tokenize t; if toks.isEmpty then none else some (toks, c)
  | _, _ => none

/-- The retained documents, in input order. -/
def buildDocs (records : List Record) : List (List String × String) :=
  records.filterMap docOfRecord

/-- First-occurrence deduplication, keeping the elements not yet `seen`. -/
def uniqAux : List String → List String → List String
  | [], _ => []
  | x :: xs, seen =>
    if x ∈ seen then uniqAux xs seen else x :: uniqAux xs (x :: seen)

/-- First-occurrence deduplication; embeds the Python `set`s
(`all_categories`, `vocabulary`) as lists with a definite order. -/
def uniq (l : List String) : List String :=
  uniqAux l []

/-- `all_categories`: the set of labels of the retained documents. -/
def observedCats (records : List Record) : List String :=
  uniq ((buildDocs records).map Prod.snd)

/-- `vocabulary`: the set of all tokens of the retained documents. -/
def observedVocab (records : List Record) : List String :=
  uniq ((buildDocs records).flatMap Prod.fst)

/-- The concatenated token lists of the documents labeled `c`. -/
def catTokens (docs : List (List String × String)) (c : String) : List String :=
  (docs.filter fun d => d.2 == c).flatMap Prod.fst

/-- `class_counts[c]`: how many retained documents carry label `c`. -/
def classCount (docs : List (List String × String)) (c : String) : Nat :=
  (docs.map Prod.snd).count c

/-- `class_total_words[c]`: total token occurrences in documents labeled `c`. -/
def classTotalWords (docs : List (List String × String)) (c : String) : Nat :=
  (catTokens docs c).length

/-- `class_word_counts[c][w]`: occurrences of token `w` in documents labeled
`c`. -/
def classWordCount (docs : List (List String × String)) (c : String) (w : String) : Nat :=
  (catTokens docs c).count w

/-- The prior probability `class_counts[c] / total_docs` whose logarithm the
script stores in `log_priors[c]`. -/
def priorProb (docs : List (List String × String)) (c : String) : ℚ :=
  (classCount docs c : ℚ) / (docs.length : ℚ)

/-- The Laplace-smoothed likelihood `(count(w,c) + 1) / (total(c) + V)` whose
logarithm the script stores in `log_likelihoods[c][w]`. -/
def lhProb (docs : List (List String × String)) (vocabLen : Nat) (c : String) (w : String) : ℚ :=
  ((classWordCount docs c w : ℚ) + 1) / ((classTotalWords docs c : ℚ) + (vocabLen : ℚ))

/-- The serialized model (lines 119–128).  `priors` and `likelihoods` are
association lists keyed by category (and, inside, by token); they store the
exact probabilities whose logarithms the script writes. -/
structure Model where
  algorithm : String
  vocab_size : Nat
  doc_count : Nat
  priors : List (String × ℚ)
  likelihoods : List (String × List (String × ℚ))
deriving DecidableEq, Repr

/-- The whole training computation (lines 54–128): ingest, count, estimate.
The dense likelihood table is built for every observed category over the
whole global vocabulary, exactly as the nested loops of the script do. -/
def trainModel (records : List Record) : Model :=
  let docs := buildDocs records
  let cats := observedCats records
  let vocab := observedVocab records
  { algorithm := "NaiveBayes"
    vocab_size := vocab.length
    doc_count := docs.length
    priors := cats.map fun c => (c, priorProb docs c)
    likelihoods := cats.map fun c =>
      (c, vocab.map fun w => (w, lhProb docs vocab.length c w)) }

/-- The per-category scoring loop (lines 143–146): start from the prior,
and for each token found in the category's table fold its likelihood in.
The script adds logarithms; over exact rationals this is the corresponding
product (see the module docstring). -/
def catScore (p : ℚ) (tbl : List (String × ℚ)) (tokens : List String) : ℚ :=
  tokens.foldl
    (fun s t =>
      match List.lookup t tbl with
      | some q => s * q
      | none => s) p

/-- The classification loop (lines 139–150): fold over the categories,
keeping the first category whose score strictly exceeds the best so far;
`none` plays the role of `best_cat = None` / `best_score = -inf`. -/
def classify (m : Model) (tokens : List String) : Option String :=
  (m.priors.foldl
    (fun best cp =>
      let score := catScore cp.2 ((List.lookup cp.1 m.likelihoods).getD []) tokens
      match best with
      | none => some (cp.1, score)
      | some (bc, bs) => if bs < score then some (cp.1, score) else some (bc, bs))
    none).map Prod.fst

/-- One line of a newline-delimited input file, as the reading loop
(lines 50–52) sees it: blank (skipped by `if line.strip()`), a line that
parses to a record, or a malformed JSON line. -/
inductive Line where
  | blank
  | ok (r : Record)
  | bad
deriving DecidableEq, Repr

/-- The newline-delimited reading loop (lines 50–52):
`for line in f: if line.strip(): source_records.append(json.loads(line))`.
`json.loads` on a malformed line raises; nothing catches the exception, so
the whole pass aborts (`Except.error`). -/
def parseLines : List Line → Except Unit (List Record)
  | [] => .ok []
  | .blank :: ls => parseLines ls
  | .ok r :: ls => (parseLines ls).map fun rs => r :: rs
  | .bad :: _ => .error ()

/-- The self-evaluation count (lines 137–153): how many retained documents
the just-trained model classifies back to their own label. -/
def selfEvalCorrect (m : Model) (docs : List (List String × String)) : Nat :=
  docs.countP fun d => classify m d.1 == some d.2

/-- Outcome of one run of `train_naive_bayes` on an already-opened input.
`crashed written` means an uncaught exception escaped; `written` is the
model that was already serialized to the output path at that point
(`none` when the crash happened before the model was written). -/
inductive RunOutcome where
  | crashed (written : Option Model)
  | finished (written : Model) (correct : Nat) (total : Nat)
deriving DecidableEq, Repr

/-- The pipeline of `train_naive_bayes` on a newline-delimited input: read
the lines (a malformed line aborts before anything is written), train and
serialize the model, then run the self-evaluation, whose final
`correct/total_docs` report raises `ZeroDivisionError` when no document was
retained — after the model file has already been written. -/
def runTraining (lines : List Line) : RunOutcome :=
  match parseLines lines with
  | .error _ => .crashed none
  | .ok records =>
    let m := trainModel records
    let docs := buildDocs records
    if docs.length = 0 then .crashed (some m)
    else .finished m (selfEvalCorrect m docs) docs.length

/-! ## Basic lemmas about `uniq` and association-list lookup -/

theorem mem_uniqAux (a : String) :
    ∀ l seen : List String, a ∈ uniqAux l seen ↔ a ∈ l ∧ a ∉ seen := by
  intro l
  induction l with
  | nil => intro seen; simp [uniqAux]
  | cons x xs ih =>
    intro seen
    by_cases hx : x ∈ seen
    · rw [uniqAux, if_pos hx, ih]
      constructor
      · rintro ⟨h1, h2⟩; exact ⟨List.mem_cons_of_mem x h1, h2⟩
      · rintro ⟨h1, h2⟩
        rcases List.mem_cons.mp h1 with h1 | h1
        · exact absurd (h1 ▸ hx) h2
        · exact ⟨h1, h2⟩
    · rw [uniqAux, if_neg hx]
      constructor
      · intro h
        rcases List.mem_cons.mp h with h | h
        · exact ⟨h ▸ List.mem_cons_self x xs, h ▸ hx⟩
        · have := (ih (x :: seen)).mp h
          exact ⟨List.mem_cons_of_mem x this.1,
            fun hs => this.2 (List.mem_cons_of_mem x hs)⟩
      · rintro ⟨h1, h2⟩
        rcases List.mem_cons.mp h1 with h1 | h1
        · exact h1 ▸ List.mem_cons_self x _
        · by_cases hax : a = x
          · exact hax ▸ List.mem_cons_self x _
          · exact List.mem_cons_of_mem x ((ih (x :: seen)).mpr
              ⟨h1, fun hs => (List.mem_cons.mp hs).elim hax h2⟩)

theorem mem_uniq (a : String) (l : List String) : a ∈ uniq l ↔ a ∈ l := by
  rw [uniq, mem_uniqAux]
  simp

theorem nodup_uniqAux : ∀ l seen : List String, (uniqAux l seen).Nodup := by
  intro l
  induction l with
  | nil => intro seen; simp [uniqAux]
  | cons x xs ih =>
    intro seen
    by_cases hx : x ∈ seen
    · rw [uniqAux, if_pos hx]; exact ih seen
    · rw [uniqAux, if_neg hx]
      refine List.nodup_cons.mpr ⟨fun h => ?_, ih (x :: seen)⟩
      exact ((mem_uniqAux x xs (x :: seen)).mp h).2 (List.mem_cons_self x seen)

theorem nodup_uniq (l : List String) : (uniq l).Nodup :=
  nodup_uniqAux l []

theorem lookup_map_self {β : Type} (f : String → β) (c : String) :
    ∀ l : List String, c ∈ l →
      List.lookup c (l.map fun x => (x, f x)) = some (f c) := by
  intro l
  induction l with
  | nil => intro h; cases h
  | cons x xs ih =>
    intro h
    by_cases hx : c = x
    · subst hx; simp [List.lookup]
    · rcases List.mem_cons.mp h with h' | h'
      · exact absurd h' hx
      · simpa [List.lookup, beq_false_of_ne hx] using ih h'

theorem lookup_map_of_not_mem {β : Type} (f : String → β) (c : String) :
    ∀ l : List String, c ∉ l →
      List.lookup c (l.map fun x => (x, f x)) = none := by
  intro l
  induction l with
  | nil => intro _; rfl
  | cons x xs ih =>
    intro h
    have hx : c ≠ x := fun hcx => h (hcx ▸ List.mem_cons_self x xs)
    have hxs : c ∉ xs := fun hc => h (List.mem_cons_of_mem x hc)
    simpa [List.lookup, beq_false_of_ne hx] using ih hxs

/-! ## C1: degenerate corpus -/

/-- The model the script serializes when zero valid documents are retained:
zero vocabulary, zero documents, empty prior and likelihood tables. -/
def emptyModel : Model :=
  { algorithm := "NaiveBayes", vocab_size := 0, doc_count := 0,
    priors := [], likelihoods := [] }

/-- C1 (the code violates the claim): on an empty input file (zero lines,
hence zero valid records) the training run does NOT abort with a
degenerate-corpus diagnostic before producing output.  It serializes the
empty model to the output path and then crashes with a `ZeroDivisionError`
when the self-evaluation computes `correct/total_docs` with
`total_docs = 0`. -/
theorem c1_empty_input_writes_empty_model_then_crashes :
    runTraining [] = RunOutcome.crashed (some emptyModel) ∧
      emptyModel.doc_count = 0 ∧ emptyModel.priors = [] ∧
      emptyModel.likelihoods = [] := by
  refine ⟨rfl, rfl, rfl, rfl⟩

/-! ## C2: malformed JSON lines abort ingestion -/

/-- A well-formed record used in concrete inputs. -/
def recFood : Record :=
  { merchant := some "zomato order", text := none,
    category := some "Food", label := none }

/-- Another well-formed record used in concrete inputs. -/
def recTransport : Record :=
  { merchant := some "uber ride", text := none,
    category := some "Transport", label := none }

/-- C2 counterexample: a malformed line in the middle of a newline-delimited
input is not skipped — `json.loads` raises, the whole ingestion pass aborts,
and the remaining well-formed line is never retained. -/
theorem c2_counterexample :
    parseLines [Line.ok recFood, Line.bad, Line.ok recTransport] =
        Except.error () ∧
      ∀ rs : List Record,
        parseLines [Line.ok recFood, Line.bad, Line.ok recTransport] ≠
          Except.ok rs := by
  refine ⟨rfl, fun rs h => ?_⟩
  rw [show parseLines [Line.ok recFood, Line.bad, Line.ok recTransport] =
    Except.error () from rfl] at h
  exact Except.noConfusion h

/-- C2 amended: during newline-delimited ingestion, a malformed JSON line
raises an uncaught parse error that aborts the whole ingestion pass (and
ingestion aborts only for that reason); malformed lines are neither skipped
nor counted. -/
theorem c2_bad_line_aborts_ingestion (lines : List Line) :
    parseLines lines = Except.error () ↔ Line.bad ∈ lines := by
  induction lines with
  | nil => simp [parseLines]
  | cons l ls ih =>
    cases l with
    | blank => simpa [parseLines] using ih
    | ok r =>
      simp only [parseLines, List.mem_cons, reduceCtorEq, false_or]
      cases h : parseLines ls with
      | error e => simpa [Except.map, h] using ih
      | ok rs => simpa [Except.map, h] using ih
    | bad => simp [parseLines]

/-! ## C3: field precedence during record resolution -/

/-- Modelled from the spec's words for C3 (the claimed behaviour, for
comparison with the source's `resolveText`): the text is resolved from the
`text` field, falling back to the `merchant` field only when `text` does
not resolve. -/
def resolveTextSpec (r : Record) : Option String :=
  let t := r.text.getD ""
  let t := if t = "" then r.merchant.getD "" else t
  if t = "" then none else some t

/-- A record carrying both a `merchant` and a `text` field, with different
values. -/
def recBoth : Record :=
  { merchant := some "starbucks", text := some "uber trip",
    category := some "Food", label := none }

/-- C3 counterexample: on a record with both fields present the source
resolves the `merchant` field, not the `text` field the claim names — the
claimed precedence is the reverse of the code's. -/
theorem c3_counterexample :
    resolveText recBoth = some "starbucks" ∧
      resolveTextSpec recBoth = some "uber trip" ∧
      resolveText recBoth ≠ resolveTextSpec recBoth := by
  refine ⟨rfl, rfl, by decide⟩

/-- Modelled from the amended claim's words: text resolved from `merchant`,
falling back to `text` only when `merchant` does not resolve (absent or
empty). -/
def resolveTextAmendedSpec (r : Record) : Option String :=
  match r.merchant with
  | some m =>
    if m = "" then
      match r.text with
      | some t => if t = "" then none else some t
      | none => none
    else some m
  | none =>
    match r.text with
    | some t => if t = "" then none else some t
    | none => none

/-- Modelled from the spec's words: label resolved from `category`, falling
back to `label` only when `category` does not resolve. -/
def resolveLabelSpec (r : Record) : Option String :=
  match r.category with
  | some c =>
    if c = "" then
      match r.label with
      | some l => if l = "" then none else some l
      | none => none
    else some c
  | none =>
    match r.label with
    | some l => if l = "" then none else some l
    | none => none

/-- C3 amended: the document text is resolved from the `merchant` field,
falling back to `text` only when `merchant` does not resolve; the label is
resolved from `category` with fallback `label`; a record resolving neither
a text nor a label contributes no document. -/
theorem c3_resolution_precedence (r : Record) (rs : List Record) :
    resolveText r = resolveTextAmendedSpec r ∧
      resolveLabel r = resolveLabelSpec r ∧
      (resolveText r = none ∧ resolveLabel r = none →
        buildDocs (r :: rs) = buildDocs rs) := by
  refine ⟨?_, ?_, ?_⟩
  · cases hm : r.merchant with
    | none =>
      cases ht : r.text with
      | none => simp [resolveText, resolveTextAmendedSpec, hm, ht]
      | some t => by_cases h : t = "" <;>
          simp [resolveText, resolveTextAmendedSpec, hm, ht, h]
    | some m =>
      by_cases h : m = ""
      · cases ht : r.text with
        | none => simp [resolveText, resolveTextAmendedSpec, hm, ht, h]
        | some t => by_cases h' : t = "" <;>
            simp [resolveText, resolveTextAmendedSpec, hm, ht, h, h']
      · simp [resolveText, resolveTextAmendedSpec, hm, h]
  · cases hm : r.category with
    | none =>
      cases ht : r.label with
      | none => simp [resolveLabel, resolveLabelSpec, hm, ht]
      | some t => by_cases h : t = "" <;>
          simp [resolveLabel, resolveLabelSpec, hm, ht, h]
    | some m =>
      by_cases h : m = ""
      · cases ht : r.label with
        | none => simp [resolveLabel, resolveLabelSpec, hm, ht, h]
        | some t => by_cases h' : t = "" <;>
            simp [resolveLabel, resolveLabelSpec, hm, ht, h, h']
      · simp [resolveLabel, resolveLabelSpec, hm, h]
  · rintro ⟨h1, _⟩
    simp [buildDocs, docOfRecord, h1]

/-- C3 witness: the amended resolution behaviour at a concrete record. -/
theorem c3_resolution_precedence_witness :
    resolveText recFood = resolveTextAmendedSpec recFood ∧
      resolveLabel recFood = resolveLabelSpec recFood ∧
      (resolveText recFood = none ∧ resolveLabel recFood = none →
        buildDocs [recFood] = buildDocs []) :=
  c3_resolution_precedence recFood []

/-! ## Counting lemmas -/

theorem sum_indicator_one (x : String) :
    ∀ keys : List String, keys.Nodup → x ∈ keys →
      (keys.map fun k => if x = k then (1 : Nat) else 0).sum = 1 := by
  intro keys
  induction keys with
  | nil => intro _ h; cases h
  | cons k ks ih =>
    intro hnd hmem
    obtain ⟨hk, hnd'⟩ := List.nodup_cons.mp hnd
    by_cases hkx : x = k
    · subst hkx
      have hz : (ks.map fun k' => if x = k' then (1 : Nat) else 0).sum = 0 :=
        List.sum_eq_zero fun n hn => by
          obtain ⟨k', hk', rfl⟩ := List.mem_map.mp hn
          exact if_neg fun h => hk (by rw [h]; exact hk')
      simp [hz]
    · have hx : x ∈ ks := by
        rcases List.mem_cons.mp hmem with h | h
        · exact absurd h hkx
        · exact h
      simp [hkx, ih hnd' hx]

/-- Partition of length by counts: summing the number of occurrences of each
key over a duplicate-free list of keys covering all elements gives the
length. -/
theorem sum_count_eq_length :
    ∀ (l keys : List String), keys.Nodup → (∀ a ∈ l, a ∈ keys) →
      (keys.map fun k => l.count k).sum = l.length := by
  intro l
  induction l with
  | nil => intro keys _ _; simp
  | cons x xs ih =>
    intro keys hnd hsub
    have hx : x ∈ keys := hsub x (List.mem_cons_self x xs)
    have hxs : ∀ a ∈ xs, a ∈ keys := fun a ha => hsub a (List.mem_cons_of_mem x ha)
    have hcnt : (fun k => (x :: xs).count k)
        = fun k => xs.count k + (if x = k then 1 else 0) := by
      funext k
      simp [List.count_cons]
    rw [hcnt, List.sum_map_add, ih keys hnd hxs, sum_indicator_one x keys hnd hx]
    simp

/-! ## C4: dense Laplace-smoothed likelihood table -/

/-- C4: for every observed category `c` and vocabulary token `w` the trained
likelihood table has an entry for `(c, w)` — the table is dense — and the
entry is the Laplace-smoothed value whose logarithm is
`log((occurrences(w,c) + 1) / (totalTokens(c) + |Vocabulary|))`. -/
theorem c4_dense_likelihood_table (records : List Record) (c w : String)
    (hc : c ∈ observedCats records) (hw : w ∈ observedVocab records) :
    ∃ tbl q,
      List.lookup c (trainModel records).likelihoods = some tbl ∧
      List.lookup w tbl = some q ∧
      q = ((classWordCount (buildDocs records) c w : ℚ) + 1) /
        ((classTotalWords (buildDocs records) c : ℚ) +
          ((observedVocab records).length : ℚ)) ∧
      Real.log (q : ℝ) =
        Real.log (((classWordCount (buildDocs records) c w : ℝ) + 1) /
          ((classTotalWords (buildDocs records) c : ℝ) +
            ((observedVocab records).length : ℝ))) := by
  refine ⟨(observedVocab records).map fun w' =>
      (w', lhProb (buildDocs records) (observedVocab records).length c w'),
    lhProb (buildDocs records) (observedVocab records).length c w, ?_, ?_, ?_, ?_⟩
  · simp only [trainModel]
    exact lookup_map_self _ c _ hc
  · exact lookup_map_self _ w _ hw
  · rfl
  · congr 1
    simp only [lhProb]
    push_cast
    ring

/-- The three-document scenario corpus of the specification. -/
def recsScenario : List Record := [recFood, recFood, recTransport]

/-- C4 witness: density and the smoothed value at a concrete corpus,
category and token. -/
theorem c4_dense_likelihood_table_witness :
    "Food" ∈ observedCats recsScenario ∧ "uber" ∈ observedVocab recsScenario ∧
      ∃ tbl q,
        List.lookup "Food" (trainModel recsScenario).likelihoods = some tbl ∧
        List.lookup "uber" tbl = some q ∧
        q = ((classWordCount (buildDocs recsScenario) "Food" "uber" : ℚ) + 1) /
          ((classTotalWords (buildDocs recsScenario) "Food" : ℚ) +
            ((observedVocab recsScenario).length : ℚ)) ∧
        Real.log (q : ℝ) =
          Real.log (((classWordCount (buildDocs recsScenario) "Food" "uber" : ℝ) + 1) /
            ((classTotalWords (buildDocs recsScenario) "Food" : ℝ) +
              ((observedVocab recsScenario).length : ℝ))) :=
  ⟨by decide, by decide,
    c4_dense_likelihood_table recsScenario "Food" "uber" (by decide) (by decide)⟩

/-! ## C5: log-priors -/

/-- C5: for every observed category of a corpus with at least one retained
document, the model's prior entry is `count(c) / totalDocuments` (whose
logarithm the script stores), and `totalDocuments` — the number of retained
documents — equals the sum of `count(c)` over the observed categories. -/
theorem c5_log_prior (records : List Record) (c : String)
    (_hne : buildDocs records ≠ []) (hc : c ∈ observedCats records) :
    ∃ q,
      List.lookup c (trainModel records).priors = some q ∧
      q = (classCount (buildDocs records) c : ℚ) /
        ((buildDocs records).length : ℚ) ∧
      ((observedCats records).map fun c' =>
        classCount (buildDocs records) c').sum = (buildDocs records).length ∧
      Real.log (q : ℝ) =
        Real.log ((classCount (buildDocs records) c : ℝ) /
          ((((observedCats records).map fun c' =>
            classCount (buildDocs records) c').sum : ℕ) : ℝ)) := by
  have hsum : ((observedCats records).map fun c' =>
      classCount (buildDocs records) c').sum = (buildDocs records).length := by
    have := sum_count_eq_length ((buildDocs records).map Prod.snd)
      (observedCats records) (nodup_uniq _)
      (fun a ha => (mem_uniq a _).mpr ha)
    simpa [classCount] using this
  refine ⟨priorProb (buildDocs records) c, ?_, rfl, hsum, ?_⟩
  · simp only [trainModel]
    exact lookup_map_self _ c _ hc
  · rw [hsum]
    congr 1
    simp only [priorProb]
    push_cast
    ring

/-- C5 witness: the prior entry and the document-count partition at a
concrete corpus and category. -/
theorem c5_log_prior_witness :
    buildDocs recsScenario ≠ [] ∧ "Transport" ∈ observedCats recsScenario ∧
      ∃ q,
        List.lookup "Transport" (trainModel recsScenario).priors = some q ∧
        q = (classCount (buildDocs recsScenario) "Transport" : ℚ) /
          ((buildDocs recsScenario).length : ℚ) ∧
        ((observedCats recsScenario).map fun c' =>
          classCount (buildDocs recsScenario) c').sum =
            (buildDocs recsScenario).length ∧
        Real.log (q : ℝ) =
          Real.log ((classCount (buildDocs recsScenario) "Transport" : ℝ) /
            ((((observedCats recsScenario).map fun c' =>
              classCount (buildDocs recsScenario) c').sum : ℕ) : ℝ)) :=
  ⟨by decide, by decide,
    c5_log_prior recsScenario "Transport" (by decide) (by decide)⟩

/-! ## Positivity of the smoothed quantities -/

/-- Documents retained by ingestion have a non-empty token list (empty
tokenizations are dropped before aggregation). -/
theorem doc_tokens_ne_nil (records : List Record) (d : List String × String)
    (hd : d ∈ buildDocs records) : d.1 ≠ [] := by
  obtain ⟨r, _, hr⟩ := List.mem_filterMap.mp hd
  rcases h1 : resolveText r with _ | t <;> rcases h2 : resolveLabel r with _ | c <;>
    simp only [docOfRecord, h1, h2] at hr
  · exact Option.noConfusion hr
  · exact Option.noConfusion hr
  · exact Option.noConfusion hr
  · split at hr
    · exact Option.noConfusion hr
    · rename_i he
      cases hr
      simpa [List.isEmpty_iff] using he

theorem vocab_ne_nil (records : List Record) (hne : buildDocs records ≠ []) :
    observedVocab records ≠ [] := by
  rcases h : buildDocs records with _ | ⟨d, ds⟩
  · exact absurd h hne
  · have hd : d ∈ buildDocs records := h ▸ List.mem_cons_self d ds
    rcases h1 : d.1 with _ | ⟨t, ts⟩
    · exact absurd h1 (doc_tokens_ne_nil records d hd)
    · have ht : t ∈ (buildDocs records).flatMap Prod.fst :=
        List.mem_flatMap.mpr ⟨d, hd, h1 ▸ List.mem_cons_self t ts⟩
      exact List.ne_nil_of_mem ((mem_uniq t _).mpr ht)

theorem catTokens_subset_vocab (records : List Record) (c : String) :
    ∀ a ∈ catTokens (buildDocs records) c, a ∈ observedVocab records := by
  intro a ha
  obtain ⟨d, hd, had⟩ := List.mem_flatMap.mp ha
  exact (mem_uniq a _).mpr
    (List.mem_flatMap.mpr ⟨d, (List.mem_filter.mp hd).1, had⟩)

theorem lh_denom_pos (records : List Record) (c : String)
    (hne : buildDocs records ≠ []) :
    (0 : ℚ) < (classTotalWords (buildDocs records) c : ℚ) +
      ((observedVocab records).length : ℚ) := by
  have hV : 0 < (observedVocab records).length :=
    List.length_pos.mpr (vocab_ne_nil records hne)
  have : (0 : ℚ) < ((observedVocab records).length : ℚ) := by exact_mod_cast hV
  positivity

theorem lhProb_pos (records : List Record) (c w : String)
    (hne : buildDocs records ≠ []) :
    0 < lhProb (buildDocs records) (observedVocab records).length c w := by
  have hd := lh_denom_pos records c hne
  have hn : (0 : ℚ) < (classWordCount (buildDocs records) c w : ℚ) + 1 := by
    positivity
  exact div_pos hn hd

/-! ## C8: monotonic smoothing -/

/-- C8: in the trained model a vocabulary token occurring zero times in an
observed category still gets a strictly positive smoothed probability, and
that probability is strictly smaller than the probability of any token
occurring at least once in that category. -/
theorem c8_monotonic_smoothing (records : List Record) (c w w' : String)
    (hne : buildDocs records ≠ []) (hc : c ∈ observedCats records)
    (hw : w ∈ observedVocab records) (hw' : w' ∈ observedVocab records)
    (h0 : classWordCount (buildDocs records) c w = 0)
    (h1 : 1 ≤ classWordCount (buildDocs records) c w') :
    ∃ tbl q q',
      List.lookup c (trainModel records).likelihoods = some tbl ∧
      List.lookup w tbl = some q ∧
      List.lookup w' tbl = some q' ∧
      0 < q ∧ q < q' := by
  refine ⟨(observedVocab records).map fun w'' =>
      (w'', lhProb (buildDocs records) (observedVocab records).length c w''),
    lhProb (buildDocs records) (observedVocab records).length c w,
    lhProb (buildDocs records) (observedVocab records).length c w', ?_, ?_, ?_, ?_, ?_⟩
  · simp only [trainModel]
    exact lookup_map_self _ c _ hc
  · exact lookup_map_self _ w _ hw
  · exact lookup_map_self _ w' _ hw'
  · exact lhProb_pos records c w hne
  · have hd := lh_denom_pos records c hne
    have hnum : ((classWordCount (buildDocs records) c w : ℚ) + 1) <
        ((classWordCount (buildDocs records) c w' : ℚ) + 1) := by
      rw [h0]
      have : (1 : ℚ) ≤ (classWordCount (buildDocs records) c w' : ℚ) := by
        exact_mod_cast h1
      push_cast
      linarith
    unfold lhProb
    gcongr

/-- C8 witness: in the scenario corpus, "uber" never occurs under "Food"
while "zomato" does; the smoothed probabilities compare as claimed. -/
theorem c8_monotonic_smoothing_witness :
    buildDocs recsScenario ≠ [] ∧ "Food" ∈ observedCats recsScenario ∧
      "uber" ∈ observedVocab recsScenario ∧ "zomato" ∈ observedVocab recsScenario ∧
      classWordCount (buildDocs recsScenario) "Food" "uber" = 0 ∧
      1 ≤ classWordCount (buildDocs recsScenario) "Food" "zomato" ∧
      ∃ tbl q q',
        List.lookup "Food" (trainModel recsScenario).likelihoods = some tbl ∧
        List.lookup "uber" tbl = some q ∧
        List.lookup "zomato" tbl = some q' ∧
        0 < q ∧ q < q' :=
  ⟨by decide, by decide, by decide, by decide, by decide, by decide,
    c8_monotonic_smoothing recsScenario "Food" "uber" "zomato"
      (by decide) (by decide) (by decide) (by decide) (by decide) (by decide)⟩

/-! ## C7: likelihood normalization -/

theorem sum_map_div (l : List String) (f : String → ℚ) (d : ℚ) :
    (l.map fun x => f x / d).sum = (l.map f).sum / d := by
  induction l with
  | nil => simp
  | cons x xs ih => simp [ih, add_div]

theorem sum_map_one (l : List String) :
    (l.map fun _ => (1 : ℚ)).sum = (l.length : ℚ) := by
  induction l with
  | nil => simp
  | cons x xs ih =>
    simp only [List.map_cons, List.sum_cons, ih, List.length_cons]
    push_cast
    ring

/-- C7: for every observed category of a trained model, the smoothed
likelihoods form a probability distribution over the vocabulary — the
entries sum to `1` exactly in rational arithmetic, hence
`sum(exp(log_likelihood)) = 1` as well. -/
theorem c7_likelihood_normalization (records : List Record) (c : String)
    (hne : buildDocs records ≠ []) (hc : c ∈ observedCats records) :
    ∃ tbl,
      List.lookup c (trainModel records).likelihoods = some tbl ∧
      (tbl.map fun e => e.2).sum = 1 ∧
      (tbl.map fun e => Real.exp (Real.log ((e.2 : ℚ) : ℝ))).sum = 1 := by
  have hD := lh_denom_pos records c hne
  have hcnt : ((observedVocab records).map fun w =>
      classWordCount (buildDocs records) c w).sum
        = classTotalWords (buildDocs records) c := by
    simpa [classWordCount, classTotalWords] using
      sum_count_eq_length (catTokens (buildDocs records) c) (observedVocab records)
        (nodup_uniq _) (catTokens_subset_vocab records c)
  have hq : (((observedVocab records).map fun w =>
      (w, lhProb (buildDocs records) (observedVocab records).length c w)).map
        fun e => e.2).sum = 1 := by
    rw [List.map_map]
    show ((observedVocab records).map fun w =>
      lhProb (buildDocs records) (observedVocab records).length c w).sum = 1
    simp only [lhProb]
    rw [sum_map_div, List.sum_map_add, sum_map_one]
    have hcast : ((observedVocab records).map fun w =>
        (classWordCount (buildDocs records) c w : ℚ)).sum
        = ((classTotalWords (buildDocs records) c : ℕ) : ℚ) := by
      rw [← hcnt, Nat.cast_list_sum, List.map_map]
      rfl
    rw [hcast]
    exact div_self (ne_of_gt hD)
  refine ⟨_, ?_, hq, ?_⟩
  · simp only [trainModel]
    exact lookup_map_self _ c _ hc
  · have hmap : (((observedVocab records).map fun w =>
        (w, lhProb (buildDocs records) (observedVocab records).length c w)).map
          fun e => Real.exp (Real.log ((e.2 : ℚ) : ℝ))).sum
        = (((observedVocab records).map fun w =>
        (w, lhProb (buildDocs records) (observedVocab records).length c w)).map
          fun e => ((e.2 : ℚ) : ℝ)).sum := by
      congr 1
      apply List.map_congr_left
      intro e he
      obtain ⟨w, hw, rfl⟩ := List.mem_map.mp he
      have hp : (0 : ℝ) <
          ((lhProb (buildDocs records) (observedVocab records).length c w : ℚ) : ℝ) := by
        exact_mod_cast lhProb_pos records c w hne
      exact Real.exp_log hp
    rw [hmap]
    have hc2 : (((((observedVocab records).map fun w =>
        (w, lhProb (buildDocs records) (observedVocab records).length c w)).map
          fun e => e.2).sum : ℚ) : ℝ)
        = (((observedVocab records).map fun w =>
        (w, lhProb (buildDocs records) (observedVocab records).length c w)).map
          fun e => ((e.2 : ℚ) : ℝ)).sum := by
      rw [Rat.cast_list_sum, List.map_map]
      rfl
    rw [← hc2, hq]
    exact Rat.cast_one

/-- C7 witness: normalization at a concrete corpus and category. -/
theorem c7_likelihood_normalization_witness :
    buildDocs recsScenario ≠ [] ∧ "Transport" ∈ observedCats recsScenario ∧
      ∃ tbl,
        List.lookup "Transport" (trainModel recsScenario).likelihoods = some tbl ∧
        (tbl.map fun e => e.2).sum = 1 ∧
        (tbl.map fun e => Real.exp (Real.log ((e.2 : ℚ) : ℝ))).sum = 1 :=
  ⟨by decide, by decide,
    c7_likelihood_normalization recsScenario "Transport" (by decide) (by decide)⟩

/-! ## The classification loop as an argmax -/

/-- One step of the best-category fold of the classification loop, abstracted
over the scoring function. -/
def bestStep (sc : String → ℚ) (best : Option (String × ℚ)) (c : String) :
    Option (String × ℚ) :=
  match best with
  | none => some (c, sc c)
  | some (bc, bs) => if bs < sc c then some (c, sc c) else some (bc, bs)

theorem argmax_go (sc : String → ℚ) :
    ∀ (l : List String) (bc : String) (bs : ℚ), bs = sc bc →
      ∃ rc, l.foldl (bestStep sc) (some (bc, bs)) = some (rc, sc rc) ∧
        (rc = bc ∨ rc ∈ l) ∧ sc bc ≤ sc rc ∧ ∀ c ∈ l, sc c ≤ sc rc := by
  intro l
  induction l with
  | nil =>
    intro bc bs hbs
    subst hbs
    exact ⟨bc, rfl, Or.inl rfl, le_refl _, by simp⟩
  | cons c cs ih =>
    intro bc bs hbs
    subst hbs
    simp only [List.foldl_cons, bestStep]
    by_cases h : sc bc < sc c
    · rw [if_pos h]
      obtain ⟨rc, h1, h2, h3, h4⟩ := ih c (sc c) rfl
      refine ⟨rc, h1, ?_, le_trans (le_of_lt h) h3, ?_⟩
      · rcases h2 with h2 | h2
        · exact Or.inr (h2 ▸ List.mem_cons_self c cs)
        · exact Or.inr (List.mem_cons_of_mem c h2)
      · intro c' hc'
        rcases List.mem_cons.mp hc' with hc' | hc'
        · exact hc' ▸ h3
        · exact h4 c' hc'
    · rw [if_neg h]
      obtain ⟨rc, h1, h2, h3, h4⟩ := ih bc (sc bc) rfl
      refine ⟨rc, h1, ?_, h3, ?_⟩
      · rcases h2 with h2 | h2
        · exact Or.inl h2
        · exact Or.inr (List.mem_cons_of_mem c h2)
      · intro c' hc'
        rcases List.mem_cons.mp hc' with hc' | hc'
        · exact hc' ▸ le_trans (le_of_not_lt h) h3
        · exact h4 c' hc'

theorem argmax_spec (sc : String → ℚ) (l : List String) (hl : l ≠ []) :
    ∃ rc, l.foldl (bestStep sc) none = some (rc, sc rc) ∧ rc ∈ l ∧
      ∀ c ∈ l, sc c ≤ sc rc := by
  cases l with
  | nil => exact absurd rfl hl
  | cons c cs =>
    simp only [List.foldl_cons, bestStep]
    obtain ⟨rc, h1, h2, h3, h4⟩ := argmax_go sc cs c (sc c) rfl
    refine ⟨rc, h1, ?_, ?_⟩
    · rcases h2 with h2 | h2
      · exact h2 ▸ List.mem_cons_self c cs
      · exact List.mem_cons_of_mem c h2
    · intro c' hc'
      rcases List.mem_cons.mp hc' with hc' | hc'
      · exact hc' ▸ h3
      · exact h4 c' hc'

/-- The classification loop of the script, specialized to a trained model,
is the abstract argmax fold over the observed categories. -/
theorem classify_foldl (records : List Record) (tokens : List String) :
    classify (trainModel records) tokens
      = ((observedCats records).foldl
          (bestStep fun c =>
            catScore (priorProb (buildDocs records) c)
              ((List.lookup c (trainModel records).likelihoods).getD []) tokens)
          none).map Prod.fst := by
  show ((((observedCats records).map fun c =>
      (c, priorProb (buildDocs records) c)).foldl _ none).map Prod.fst) = _
  rw [List.foldl_map]
  rfl

/-- The scoring fold over a dense association table over `vocab` multiplies
the prior by the table values of the in-vocabulary tokens (out-of-vocabulary
tokens contribute nothing). -/
theorem catScore_eq_prod (vocab : List String) (f : String → ℚ) :
    ∀ (tokens : List String) (p : ℚ),
      catScore p (vocab.map fun w => (w, f w)) tokens
        = p * ((tokens.filter fun t => t ∈ vocab).map f).prod := by
  intro tokens
  induction tokens with
  | nil => intro p; simp [catScore]
  | cons t ts ih =>
    intro p
    by_cases ht : t ∈ vocab
    · have hstep : catScore p (vocab.map fun w => (w, f w)) (t :: ts)
          = catScore (p * f t) (vocab.map fun w => (w, f w)) ts := by
        simp only [catScore, List.foldl_cons, lookup_map_self f t vocab ht]
      rw [hstep, ih, List.filter_cons_of_pos (by simpa using ht)]
      simp [mul_assoc]
    · have hstep : catScore p (vocab.map fun w => (w, f w)) (t :: ts)
          = catScore p (vocab.map fun w => (w, f w)) ts := by
        simp only [catScore, List.foldl_cons, lookup_map_of_not_mem f t vocab ht]
      rw [hstep, ih, List.filter_cons_of_neg (by simpa using ht)]

theorem priorProb_pos (records : List Record) (c : String)
    (hne : buildDocs records ≠ []) (hc : c ∈ observedCats records) :
    0 < priorProb (buildDocs records) c := by
  have hcnt : 0 < classCount (buildDocs records) c :=
    List.count_pos_iff.mpr ((mem_uniq c _).mp hc)
  have hlen : 0 < (buildDocs records).length := List.length_pos.mpr hne
  have h1 : (0 : ℚ) < (classCount (buildDocs records) c : ℚ) := by exact_mod_cast hcnt
  have h2 : (0 : ℚ) < ((buildDocs records).length : ℚ) := by exact_mod_cast hlen
  exact div_pos h1 h2

theorem lh_prod_pos (records : List Record) (c : String) (tokens : List String)
    (hne : buildDocs records ≠ []) :
    0 < ((tokens.filter fun t => t ∈ observedVocab records).map fun t =>
      lhProb (buildDocs records) (observedVocab records).length c t).prod := by
  apply List.prod_pos
  intro a ha
  obtain ⟨t, _, rfl⟩ := List.mem_map.mp ha
  exact lhProb_pos records c t hne

/-- Logarithm of a product of positive rationals, term by term. -/
theorem log_prod_list :
    ∀ l : List ℚ, (∀ q ∈ l, 0 < q) →
      Real.log ((l.prod : ℚ) : ℝ) = (l.map fun q => Real.log ((q : ℚ) : ℝ)).sum := by
  intro l
  induction l with
  | nil => simp
  | cons q qs ih =>
    intro h
    have hq : 0 < q := h q (List.mem_cons_self q qs)
    have hqs : ∀ r ∈ qs, 0 < r := fun r hr => h r (List.mem_cons_of_mem q hr)
    have hprod : 0 < qs.prod := List.prod_pos hqs
    have hq' : ((q : ℚ) : ℝ) ≠ 0 := ne_of_gt (by exact_mod_cast hq)
    have hprod' : ((qs.prod : ℚ) : ℝ) ≠ 0 := ne_of_gt (by exact_mod_cast hprod)
    rw [List.prod_cons, List.map_cons, List.sum_cons, Rat.cast_mul,
      Real.log_mul hq' hprod', ih hqs]

/-- The log of the rational score the fold computes for an observed category
is exactly the log-space score of the specification: log-prior plus the sum
of the log-likelihoods of the in-vocabulary tokens. -/
theorem logScore_eq (records : List Record) (tokens : List String) (c : String)
    (hne : buildDocs records ≠ []) (hc : c ∈ observedCats records) :
    Real.log ((catScore (priorProb (buildDocs records) c)
        ((List.lookup c (trainModel records).likelihoods).getD []) tokens : ℚ) : ℝ)
      = Real.log ((priorProb (buildDocs records) c : ℚ) : ℝ)
        + ((tokens.filter fun t => t ∈ observedVocab records).map fun t =>
            Real.log ((lhProb (buildDocs records)
              (observedVocab records).length c t : ℚ) : ℝ)).sum := by
  have hl : List.lookup c (trainModel records).likelihoods
      = some ((observedVocab records).map fun w =>
          (w, lhProb (buildDocs records) (observedVocab records).length c w)) := by
    simp only [trainModel]
    exact lookup_map_self _ c _ hc
  rw [hl]
  show Real.log ((catScore (priorProb (buildDocs records) c)
      ((observedVocab records).map fun w =>
        (w, lhProb (buildDocs records) (observedVocab records).length c w)) tokens : ℚ) : ℝ) = _
  rw [catScore_eq_prod]
  have hp' : ((priorProb (buildDocs records) c : ℚ) : ℝ) ≠ 0 :=
    ne_of_gt (by exact_mod_cast priorProb_pos records c hne hc)
  have hprod' : ((((tokens.filter fun t => t ∈ observedVocab records).map fun t =>
      lhProb (buildDocs records) (observedVocab records).length c t).prod : ℚ) : ℝ) ≠ 0 :=
    ne_of_gt (by exact_mod_cast lh_prod_pos records c tokens hne)
  rw [Rat.cast_mul, Real.log_mul hp' hprod',
    log_prod_list _ (fun q hq => by
      obtain ⟨t, _, rfl⟩ := List.mem_map.mp hq
      exact lhProb_pos records c t hne),
    List.map_map]
  rfl

/-! ## C6: the classifier returns a maximal-score category -/

/-- C6: for every tokenized document and every trained model with at least
one category, the classifier scores each category as its log-prior plus the
sum of its log-likelihoods over the document's in-vocabulary tokens
(out-of-vocabulary tokens contribute nothing), and it returns an observed
category attaining the maximum of these scores; a document with zero
in-vocabulary tokens still receives a prediction, namely a category of
maximal prior. -/
theorem c6_classifier_argmax (records : List Record) (tokens : List String)
    (hcats : observedCats records ≠ []) :
    ∃ c, classify (trainModel records) tokens = some c ∧
      c ∈ observedCats records ∧
      (∀ c' ∈ observedCats records,
        Real.log ((priorProb (buildDocs records) c' : ℚ) : ℝ)
          + ((tokens.filter fun t => t ∈ observedVocab records).map fun t =>
              Real.log ((lhProb (buildDocs records)
                (observedVocab records).length c' t : ℚ) : ℝ)).sum
        ≤ Real.log ((priorProb (buildDocs records) c : ℚ) : ℝ)
          + ((tokens.filter fun t => t ∈ observedVocab records).map fun t =>
              Real.log ((lhProb (buildDocs records)
                (observedVocab records).length c t : ℚ) : ℝ)).sum) ∧
      ((tokens.filter fun t => t ∈ observedVocab records) = [] →
        ∀ c' ∈ observedCats records,
          priorProb (buildDocs records) c' ≤ priorProb (buildDocs records) c) := by
  have hne : buildDocs records ≠ [] := by
    intro h
    exact hcats (by rw [observedCats, h]; rfl)
  obtain ⟨rc, hfold, hmem, hmax⟩ := argmax_spec
    (fun c => catScore (priorProb (buildDocs records) c)
      ((List.lookup c (trainModel records).likelihoods).getD []) tokens)
    (observedCats records) hcats
  have hsc : ∀ c ∈ observedCats records,
      catScore (priorProb (buildDocs records) c)
        ((List.lookup c (trainModel records).likelihoods).getD []) tokens
      = priorProb (buildDocs records) c *
        ((tokens.filter fun t => t ∈ observedVocab records).map fun t =>
          lhProb (buildDocs records) (observedVocab records).length c t).prod := by
    intro c hc
    have hl : List.lookup c (trainModel records).likelihoods
        = some ((observedVocab records).map fun w =>
            (w, lhProb (buildDocs records) (observedVocab records).length c w)) := by
      simp only [trainModel]
      exact lookup_map_self _ c _ hc
    rw [hl]
    exact catScore_eq_prod (observedVocab records) _ tokens _
  refine ⟨rc, ?_, hmem, ?_, ?_⟩
  · rw [classify_foldl, hfold]
    rfl
  · intro c' hc'
    rw [← logScore_eq records tokens c' hne hc', ← logScore_eq records tokens rc hne hmem]
    have hq : catScore (priorProb (buildDocs records) c')
        ((List.lookup c' (trainModel records).likelihoods).getD []) tokens
        ≤ catScore (priorProb (buildDocs records) rc)
        ((List.lookup rc (trainModel records).likelihoods).getD []) tokens := hmax c' hc'
    have hpos : (0 : ℚ) < catScore (priorProb (buildDocs records) c')
        ((List.lookup c' (trainModel records).likelihoods).getD []) tokens := by
      rw [hsc c' hc']
      exact mul_pos (priorProb_pos records c' hne hc') (lh_prod_pos records c' tokens hne)
    exact Real.log_le_log (by exact_mod_cast hpos) (by exact_mod_cast hq)
  · intro hfil c' hc'
    have h1 := hmax c' hc'
    rw [hsc c' hc', hsc rc hmem, hfil] at h1
    simpa using h1

/-- C6 witness: on the scenario corpus the classifier run on
`tokenize "zomato delivery"` returns a maximal-score category. -/
theorem c6_classifier_argmax_witness :
    observedCats recsScenario ≠ [] ∧
      ∃ c, classify (trainModel recsScenario) (tokenize "zomato delivery") = some c ∧
        c ∈ observedCats recsScenario ∧
        (∀ c' ∈ observedCats recsScenario,
          Real.log ((priorProb (buildDocs recsScenario) c' : ℚ) : ℝ)
            + (((tokenize "zomato delivery").filter fun t =>
                t ∈ observedVocab recsScenario).map fun t =>
                Real.log ((lhProb (buildDocs recsScenario)
                  (observedVocab recsScenario).length c' t : ℚ) : ℝ)).sum
          ≤ Real.log ((priorProb (buildDocs recsScenario) c : ℚ) : ℝ)
            + (((tokenize "zomato delivery").filter fun t =>
                t ∈ observedVocab recsScenario).map fun t =>
                Real.log ((lhProb (buildDocs recsScenario)
                  (observedVocab recsScenario).length c t : ℚ) : ℝ)).sum) ∧
        (((tokenize "zomato delivery").filter fun t =>
            t ∈ observedVocab recsScenario) = [] →
          ∀ c' ∈ observedCats recsScenario,
            priorProb (buildDocs recsScenario) c' ≤ priorProb (buildDocs recsScenario) c) :=
  ⟨by decide, c6_classifier_argmax recsScenario (tokenize "zomato delivery") (by decide)⟩

/-! ## C10: the classification loop always predicts an observed category -/

/-- C10: for every model trained on a corpus with a non-empty set of
observed categories and every token list (including the empty one), the
classification loop of the self-evaluation pass returns `some` prediction,
and the prediction is one of the observed categories. -/
theorem c10_always_predicts (records : List Record) (tokens : List String)
    (hcats : observedCats records ≠ []) :
    ∃ c, classify (trainModel records) tokens = some c ∧
      c ∈ observedCats records := by
  obtain ⟨rc, hfold, hmem, _⟩ := argmax_spec
    (fun c => catScore (priorProb (buildDocs records) c)
      ((List.lookup c (trainModel records).likelihoods).getD []) tokens)
    (observedCats records) hcats
  refine ⟨rc, ?_, hmem⟩
  rw [classify_foldl, hfold]
  rfl

/-- C10 witness: a document with no tokens at all still gets classified to
an observed category. -/
theorem c10_always_predicts_witness :
    observedCats recsScenario ≠ [] ∧
      ∃ c, classify (trainModel recsScenario) [] = some c ∧
        c ∈ observedCats recsScenario :=
  ⟨by decide, c10_always_predicts recsScenario [] (by decide)⟩

/-! ## C9: tokenization is idempotent under re-tokenization -/

/-- Every run produced by the tokenizer is non-empty and consists of
characters matched by the regex class. -/
theorem tokRuns_tokens :
    ∀ (l acc : List Char), (∀ c ∈ acc, isTok c = true) →
      ∀ t ∈ tokRuns l acc, t ≠ [] ∧ ∀ c ∈ t, isTok c = true := by
  intro l
  induction l with
  | nil =>
    intro acc hacc t ht
    by_cases he : acc.isEmpty
    · rw [tokRuns, if_pos he] at ht
      cases ht
    · rw [tokRuns, if_neg he] at ht
      rcases List.mem_cons.mp ht with ht | ht
      · subst ht
        refine ⟨?_, fun c hc => hacc c (List.mem_reverse.mp hc)⟩
        intro hnil
        exact he (by rw [List.isEmpty_iff]; exact List.reverse_eq_nil_iff.mp hnil)
      · cases ht
  | cons c cs ih =>
    intro acc hacc t ht
    by_cases hc : isTok c
    · rw [tokRuns, if_pos hc] at ht
      refine ih (c :: acc) ?_ t ht
      intro c' hc'
      rcases List.mem_cons.mp hc' with hc' | hc'
      · exact hc' ▸ hc
      · exact hacc c' hc'
    · rw [tokRuns, if_neg hc] at ht
      by_cases he : acc.isEmpty
      · rw [if_pos he] at ht
        exact ih acc hacc t ht
      · rw [if_neg he] at ht
        rcases List.mem_cons.mp ht with ht | ht
        · subst ht
          refine ⟨?_, fun c' hc' => hacc c' (List.mem_reverse.mp hc')⟩
          intro hnil
          exact he (by rw [List.isEmpty_iff]; exact List.reverse_eq_nil_iff.mp hnil)
        · exact ih [] (by simp) t ht

/-- Lowering fixes the characters the tokenizer keeps. -/
theorem pyLower_isTok (c : Char) (h : isTok c = true) : pyLower c = c := by
  have h' : ('a' ≤ c ∧ c ≤ 'z') ∨ ('0' ≤ c ∧ c ≤ '9') := by
    simpa [isTok, Bool.or_eq_true, Bool.and_eq_true, decide_eq_true_eq] using h
  have hcond : ¬((decide ('A' ≤ c) && decide (c ≤ 'Z')) = true) := by
    intro hAZ
    rw [Bool.and_eq_true, decide_eq_true_eq, decide_eq_true_eq] at hAZ
    rcases h' with ⟨h1, _⟩ | ⟨_, h2⟩
    · exact absurd (le_trans h1 hAZ.2) (by decide)
    · exact absurd (le_trans hAZ.1 h2) (by decide)
  rw [pyLower, if_neg hcond]

/-- Consuming a whole run of kept characters just accumulates it. -/
theorem tokRuns_append_run :
    ∀ (t : List Char), (∀ c ∈ t, isTok c = true) →
      ∀ (l acc : List Char), tokRuns (t ++ l) acc = tokRuns l (t.reverse ++ acc) := by
  intro t
  induction t with
  | nil => intro _ l acc; simp
  | cons c cs ih =>
    intro ht l acc
    have hc : isTok c = true := ht c (List.mem_cons_self c cs)
    show tokRuns (c :: (cs ++ l)) acc = _
    rw [tokRuns, if_pos hc,
      ih (fun c' hc' => ht c' (List.mem_cons_of_mem c hc')) l (c :: acc)]
    simp [List.reverse_cons, List.append_assoc]

/-- A space flushes the (non-empty) accumulated run. -/
theorem tokRuns_space (l acc : List Char) (hacc : acc ≠ []) :
    tokRuns (' ' :: l) acc = acc.reverse :: tokRuns l [] := by
  have hs : isTok ' ' = false := by decide
  have he : ¬(acc.isEmpty = true) := by simp [List.isEmpty_iff, hacc]
  rw [tokRuns, if_neg (by simp [hs]), if_neg he]

theorem tokRuns_nil_acc (acc : List Char) (h : acc ≠ []) :
    tokRuns [] acc = [acc.reverse] := by
  have he : ¬(acc.isEmpty = true) := by simp [List.isEmpty_iff, h]
  rw [tokRuns, if_neg he]

/-- Re-splitting a space-join of non-empty all-kept runs recovers the runs. -/
theorem tokRuns_joinChars :
    ∀ ts : List (List Char),
      (∀ t ∈ ts, t ≠ [] ∧ ∀ c ∈ t, isTok c = true) →
      tokRuns (joinChars ts) [] = ts := by
  intro ts
  induction ts with
  | nil => intro _; rw [joinChars, tokRuns]; rfl
  | cons t ts ih =>
    intro h
    obtain ⟨hne, hkept⟩ := h t (List.mem_cons_self t ts)
    cases ts with
    | nil =>
      show tokRuns (joinChars [t]) [] = [t]
      have happ := tokRuns_append_run t hkept [] []
      rw [List.append_nil] at happ
      rw [show joinChars [t] = t from rfl, happ, List.append_nil,
        tokRuns_nil_acc t.reverse (by simpa using hne), List.reverse_reverse]
    | cons t' ts' =>
      show tokRuns (t ++ ' ' :: joinChars (t' :: ts')) [] = t :: t' :: ts'
      rw [tokRuns_append_run t hkept _ [], List.append_nil,
        tokRuns_space _ t.reverse (by simpa using hne), List.reverse_reverse,
        ih (fun u hu => h u (List.mem_cons_of_mem t hu))]

/-- Characters of a join are characters of some run, or the separator. -/
theorem mem_joinChars :
    ∀ (ts : List (List Char)) (c : Char), c ∈ joinChars ts →
      (∃ t ∈ ts, c ∈ t) ∨ c = ' ' := by
  intro ts
  induction ts with
  | nil => intro c hc; cases hc
  | cons t ts ih =>
    cases ts with
    | nil =>
      intro c hc
      exact Or.inl ⟨t, List.mem_cons_self t [], hc⟩
    | cons t' ts' =>
      intro c hc
      have hcc : joinChars (t :: t' :: ts') = t ++ ' ' :: joinChars (t' :: ts') := rfl
      rw [hcc] at hc
      rcases List.mem_append.mp hc with hc | hc
      · exact Or.inl ⟨t, List.mem_cons_self _ _, hc⟩
      · rcases List.mem_cons.mp hc with hc | hc
        · exact Or.inr hc
        · rcases ih c hc with ⟨u, hu, hcu⟩ | hc
          · exact Or.inl ⟨u, List.mem_cons_of_mem t hu, hcu⟩
          · exact Or.inr hc

/-- Lowering fixes a space-join of all-kept runs. -/
theorem map_pyLower_joinChars (ts : List (List Char))
    (h : ∀ t ∈ ts, ∀ c ∈ t, isTok c = true) :
    (joinChars ts).map pyLower = joinChars ts := by
  have hfix : ∀ c ∈ joinChars ts, pyLower c = id c := by
    intro c hc
    rcases mem_joinChars ts c hc with ⟨t, ht, hct⟩ | hc'
    · exact pyLower_isTok c (h t ht c hct)
    · subst hc'
      decide
  rw [List.map_congr_left hfix, List.map_id]

/-- C9: the tokenizer is idempotent under re-tokenization — tokenizing the
space-join of `tokenize s` gives back exactly `tokenize s`, for every input
string. -/
theorem c9_tokenize_idempotent (s : String) :
    tokenize (joinTokens (tokenize s)) = tokenize s := by
  have hprops : ∀ t ∈ tokRuns (s.data.map pyLower) [], t ≠ [] ∧ ∀ c ∈ t, isTok c = true :=
    tokRuns_tokens (s.data.map pyLower) [] (by simp)
  show tokenize (joinTokens ((tokRuns (s.data.map pyLower) []).map fun cs => ⟨cs⟩)) = _
  have hdata : (joinTokens ((tokRuns (s.data.map pyLower) []).map
      fun cs => (⟨cs⟩ : String))).data = joinChars (tokRuns (s.data.map pyLower) []) := by
    show joinChars ((((tokRuns (s.data.map pyLower) []).map
      fun cs => (⟨cs⟩ : String))).map String.data) = _
    rw [List.map_map]
    congr 1
    have hid : ∀ a ∈ tokRuns (s.data.map pyLower) [],
        (String.data ∘ fun cs => (⟨cs⟩ : String)) a = id a := fun a _ => rfl
    rw [List.map_congr_left hid, List.map_id]
  rw [tokenize, hdata,
    map_pyLower_joinChars _ (fun t ht => (hprops t ht).2),
    tokRuns_joinChars _ hprops]
  rfl
